import Mathlib

/-!
Shallow embedding of `src/codehelp.ts` of the vscode-sonic-pi extension.

The embedding models the three cores of the file: the YAML-definition
parser (`parseYamlDefinitions`), the command-description model and its
formatter (`SonicPiCommandDescription` and `format`), and the
word-boundary resolver (`getWordAtCursor`), together with the thin
registry update of `SonicPiLanguageHelpProvider.init` and the completion
builder `provideCompletionItems`.

Modelling conventions:
* TypeScript strings are Lean `String`s; where the code indexes into a
  line character by character (`charAt`, `substr`) the line is carried as
  a `List Char` (the inputs of interest are ASCII, so UTF-16 indexing and
  codepoint indexing agree).
* `MarkdownString` from the vscode API is a plain record of its text
  `value` and its `isTrusted` flag; `appendMarkdown` is string
  concatenation and the later `isTrusted = true` mutations are folded
  into the construction of the final record.
* Fallible code (the `throw new Error` branches of
  `parseYamlDefinitions`) returns `Except String`.
-/

/-- Enum `CodeHelpDetailLevel` from codehelp.ts (OFF, MINIMUM,
NO_EXAMPLES_NO_LINKS, FULL). -/
inductive CodeHelpDetailLevel where
  | OFF
  | MINIMUM
  | NO_EXAMPLES_NO_LINKS
  | FULL
deriving DecidableEq

/-- Enum `SonicPiTypeDescription` from codehelp.ts. -/
inductive SonicPiTypeDescription where
  | UNKNOWN
  | ANY
  | RATIONAL_PATTERN
  | CONTROL_PATTERN
  | TIME_PATTERN
deriving DecidableEq

/-- Reverse enum lookup `SonicPiTypeDescription[x]` used by `format`. -/
def SonicPiTypeDescription.enumName : SonicPiTypeDescription → String
  | .UNKNOWN => "UNKNOWN"
  | .ANY => "ANY"
  | .RATIONAL_PATTERN => "RATIONAL_PATTERN"
  | .CONTROL_PATTERN => "CONTROL_PATTERN"
  | .TIME_PATTERN => "TIME_PATTERN"

/-- The vscode `MarkdownString`: a text value plus its trust flag
(`isTrusted` defaults to `false` on construction, as in the vscode API). -/
structure MarkdownString where
  value : String
  isTrusted : Bool := false
deriving DecidableEq

/-- A value that is statically either a plain string or a `MarkdownString`
(the TypeScript code takes `string | MarkdownString` in several places and
distinguishes the two with `typeof x === 'string'`). -/
inductive StrOrMd where
  | s (v : String)
  | md (m : MarkdownString)
deriving DecidableEq

/-- Class `SonicPiParameterDescription` as constructed (its `editable` and
`type` constructor arguments are optional; the parser always omits them). -/
structure SonicPiParameterDescription where
  name : String
  help : StrOrMd
  editable : Option Bool := none
  type : Option SonicPiTypeDescription := none
deriving DecidableEq

/-- Shape of one element of `SonicPiCommandDescription.parameters` after
the constructor's normalizing `map` (editable defaulted, help lifted to a
`MarkdownString`, trust-marked). -/
structure ParameterNorm where
  name : String
  help : MarkdownString
  editable : Bool
  type : Option SonicPiTypeDescription
deriving DecidableEq

/-- The normalized `SonicPiCommandDescription` fields. The TypeScript
field types allow `undefined` for `parameters` and `examples`, but the
constructor always assigns arrays to both, so they are plain lists here. -/
structure SonicPiCommandDescription where
  command : String
  formattedCommand : List MarkdownString
  parameters : List ParameterNorm
  returns : Option MarkdownString
  help : Option MarkdownString
  examples : List MarkdownString
deriving DecidableEq

/-- The `config` argument of the `SonicPiCommandDescription` constructor,
with each optional field absent by default. `formattedCommand` and
`examples` accept a single value or an array of values. -/
structure CommandDescriptionConfig where
  command : String
  formattedCommand : Option (StrOrMd ⊕ List StrOrMd) := none
  parameters : Option (List SonicPiParameterDescription) := none
  returns : Option String := none
  help : Option StrOrMd := none
  examples : Option (StrOrMd ⊕ List StrOrMd) := none

/-- The backtick character, written by code point. -/
def backtickChar : Char := Char.ofNat 96

/-- Character membership in a string, the test `s.indexOf(ch) < 0`
negated (spelled over the character list so that proofs can evaluate
it). -/
def strContainsChar (s : String) (ch : Char) : Bool :=
  s.data.contains ch

/-- The prefix test `s.indexOf(pre) === 0` (spelled over the character
lists so that proofs can evaluate it). -/
def strStartsWith (s pre : String) : Bool :=
  decide (s.data.take pre.data.length = pre.data)

/-- The apostrophe character, written by code point. -/
def apostropheChar : Char := Char.ofNat 39

/-- Embedding of the regex replace `/(\s*\r?\n)*$/ -> ''` applied to each
string example: it removes the longest all-whitespace suffix that ends in
a newline (trailing whitespace after the last newline is kept, matching
the anchored regex). -/
def stripTrailingBlankLines (s : String) : String :=
  if s.data.getLast? = some '\n' then
    String.mk (s.data.reverse.dropWhile Char.isWhitespace).reverse
  else s

/-- Embedding of the regex replace `/\r?\n/g -> "\r\n"`: every newline,
with an optional carriage return directly before it, becomes `"\r\n"`. -/
def normEol : List Char → List Char
  | [] => []
  | '\r' :: '\n' :: rest => '\r' :: '\n' :: normEol rest
  | '\n' :: rest => '\r' :: '\n' :: normEol rest
  | c :: rest => c :: normEol rest

/-- The `SonicPiCommandDescription` constructor (codehelp.ts lines 41-138):
parameter normalization, signature synthesis when `formattedCommand` is
absent, four-space indenting of string signatures, example wrapping, and
the trust-marking passes. -/
def SonicPiCommandDescription.make (config : CommandDescriptionConfig) :
    SonicPiCommandDescription :=
  let parameters0 : List ParameterNorm :=
    match config.parameters with
    | none => []
    | some ps => ps.map (fun parm =>
        { name := parm.name
        , editable := parm.editable.getD false
        , help := match parm.help with | .s v => { value := v } | .md m => m
        , type := parm.type })
  let formattedCommand1 : List StrOrMd :=
    match config.formattedCommand with
    | none =>
      match config.parameters with
      | none => [.s (config.command ++ " ?")]
      | some _ => [.s (config.command ++ " " ++
          String.intercalate " " (parameters0.map (fun x => x.name)))]
    | some (.inl one) => [one]
    | some (.inr many) => many
  let formattedCommand2 : List MarkdownString :=
    formattedCommand1.map (fun cmd =>
      match cmd with
      | .s c =>
        { value := if strContainsChar c backtickChar = false ∨
                      strStartsWith c "    " = false
                   then "    " ++ c else c }
      | .md m => m)
  let examples0 : List MarkdownString :=
    match config.examples with
    | none => []
    | some (.inl (.s v)) => [{ value := v }]
    | some (.inl (.md m)) => [m]
    | some (.inr xs) => xs.map (fun x =>
        match x with
        | .s v => { value := "~~~\n" ++
            String.mk (normEol (stripTrailingBlankLines v).data) ++ "\n~~~\n" }
        | .md m => m)
  { command := config.command
  , formattedCommand := formattedCommand2.map (fun m => { m with isTrusted := true })
  , parameters := parameters0.map (fun p =>
      { p with help := { p.help with isTrusted := true } })
  , returns :=
      match config.returns with
      | none => none
      | some r => some { value := r, isTrusted := true }
  , help :=
      match config.help with
      | none => none
      | some (.s v) => some { value := v, isTrusted := true }
      | some (.md m) => some { m with isTrusted := true }
  , examples := examples0.map (fun m => { m with isTrusted := true }) }

/-- The horizontal-rule separator constant `hline` of `format`. -/
def hline : String := "\r\n- - -\r\n\r\n"

/-- The signature block appended first by `format`: the joined
`formattedCommand` values when `withCommand` is set, otherwise empty. -/
def signatureText (d : SonicPiCommandDescription) (withCommand : Bool) : String :=
  if withCommand then
    String.intercalate "    \n" (d.formattedCommand.map (fun x => x.value))
  else ""

/-- The help block of `format`: absent help contributes nothing; present
help is preceded by a separator exactly when the text so far is
non-empty. -/
def helpText (d : SonicPiCommandDescription) (pre : String) : String :=
  match d.help with
  | none => ""
  | some h => (if pre.length > 0 then hline else "") ++ h.value

/-- One rendered parameter line of `format`: the backticked name, an
optional backticked type tag, and the parameter help. -/
def paramLine (x : ParameterNorm) : String :=
  "`" ++ x.name ++ "` " ++
  (match x.type with
   | some t => "`" ++ t.enumName ++ "`"
   | none => "") ++
  " " ++ x.help.value

/-- The parameters block of `format`; a non-empty parameter list is always
preceded by a separator (the `parameters === undefined` half of the
source's guard is vacuous because the constructor always assigns a
list). -/
def paramsText (d : SonicPiCommandDescription) : String :=
  if d.parameters.isEmpty then ""
  else hline ++ String.intercalate "    \r\n" (d.parameters.map paramLine)

/-- The returns block of `format`. -/
def returnsText (d : SonicPiCommandDescription) : String :=
  match d.returns with
  | none => ""
  | some r => "\r\n\r\n" ++ "Returns: " ++ r.value

/-- The examples block of `format`; a non-empty examples list is always
preceded by a separator. -/
def examplesText (d : SonicPiCommandDescription) : String :=
  if d.examples.isEmpty then ""
  else hline ++ "Examples:\r\n\r\n" ++
    String.intercalate "    \r\n" (d.examples.map (fun x => x.value))

/-- Method `format` (codehelp.ts lines 140-187): `OFF` yields no text;
`MINIMUM` stops after the signature; `NO_EXAMPLES_NO_LINKS` adds help,
parameters and returns; `FULL` adds the examples block. The result is a
trusted `MarkdownString` built by successive `appendMarkdown` calls,
i.e. string concatenation. -/
def SonicPiCommandDescription.format (d : SonicPiCommandDescription)
    (detailLevel : CodeHelpDetailLevel) (withCommand : Bool) :
    Option MarkdownString :=
  if detailLevel = .OFF then none
  else
    let ms1 := signatureText d withCommand
    if detailLevel = .MINIMUM then some { value := ms1, isTrusted := true }
    else
      let ms2 := ms1 ++ helpText d ms1
      let ms3 := ms2 ++ paramsText d
      let ms4 := ms3 ++ returnsText d
      if detailLevel = .NO_EXAMPLES_NO_LINKS then
        some { value := ms4, isTrusted := true }
      else some { value := ms4 ++ examplesText d, isTrusted := true }

/-- Character class of the left scan of `getWordAtCursor`, the regex
`/^[0-9a-z_]$/i`: ASCII letters, digits and underscore. -/
def isWordChar (c : Char) : Bool :=
  c.isAlphanum || c = '_'

/-- Character class of the right scan of `getWordAtCursor`, the regex
`/^[0-9a-z_']$/i`: the left class plus the apostrophe. -/
def isWordCharApos (c : Char) : Bool :=
  isWordChar c || c = apostropheChar

/-- Embedding of the comment strip on the raw line, the replace of the
anchored pattern "minus minus, anything, end" with the empty string: the
line is cut from the first occurrence of the two-character marker to its end (a
document line contains no newline, so the anchored regex matches from the
leftmost `--`). -/
def stripComment : List Char → List Char
  | [] => []
  | '-' :: '-' :: _ => []
  | c :: rest => c :: stripComment rest

/-- Embedding of `line.replace(/\s+$/,'')`: trailing whitespace is
removed. -/
def stripTrailingWs (l : List Char) : List Char :=
  (l.reverse.dropWhile Char.isWhitespace).reverse

/-- The comment-stripped, right-trimmed line computed on the first line of
`getWordAtCursor`. -/
def trimLine (raw : List Char) : List Char :=
  stripTrailingWs (stripComment raw)

/-- The character of the line at index `i`, as seen by `line.charAt(i)`
(an out-of-range read yields the empty string, which the word-class
regexes reject just as the space default does; the loops only read
in-range indices anyway). -/
def charAt (line : List Char) (i : Nat) : Char :=
  line.getD i ' '

/-- The left scan loop of `getWordAtCursor`, entered at index `i`
(`position.character - 1` on the first iteration): while the character
matches the word class it moves left, and on the first mismatch at `i`
the start is `i + 1`; if index 0 still matches, the start is 0. -/
def scanLeft (line : List Char) : Nat → Nat
  | 0 => if isWordChar (charAt line 0) then 0 else 1
  | i + 1 => if isWordChar (charAt line (i + 1)) then scanLeft line i else i + 2

/-- Body of the right scan loop of `getWordAtCursor`: the loop runs at
most `line.length - i` more iterations from index `i`, and that bound is
carried as an explicit structural argument so the function computes by
structural recursion (see `scanRight_eq` for the loop-shaped
unfolding). -/
def scanRightGo (line : List Char) : Nat → Nat → Nat
  | _, 0 => line.length
  | i, fuel + 1 =>
    if isWordCharApos (charAt line i) then scanRightGo line (i + 1) fuel else i

/-- The right scan loop of `getWordAtCursor`, entered at the cursor
offset: while the character matches the extended word class it moves
right; the first mismatch index is the (exclusive) end, and the line
length is the end when the scan runs off the line. -/
def scanRight (line : List Char) (i : Nat) : Nat :=
  scanRightGo line i (line.length - i)

/-- The loop-shaped unfolding of `scanRight`, matching the source loop
literally: at an in-range index a matching character moves the scan
right and a mismatch ends it there; past the line the end is the line
length. -/
theorem scanRight_eq (line : List Char) (i : Nat) :
    scanRight line i =
      if i < line.length then
        (if isWordCharApos (charAt line i) then scanRight line (i + 1) else i)
      else line.length := by
  unfold scanRight
  by_cases h : i < line.length
  · rw [if_pos h]
    have hf : line.length - i = (line.length - (i + 1)) + 1 := by omega
    rw [hf]
    rfl
  · rw [if_neg h]
    have hf : line.length - i = 0 := by omega
    rw [hf]
    rfl

/-- The start index of `getWordAtCursor` (codehelp.ts lines 350-358): the
left scan is entered at `position.character - 1`, and with the cursor at
offset 0 the loop body never runs and the start stays 0. -/
def wordStart (line : List Char) (charPos : Nat) : Nat :=
  match charPos with
  | 0 => 0
  | i + 1 => scanLeft line i

/-- Method `getWordAtCursor`, assembled: answer nothing past the trimmed
line, otherwise the substring between the scan results and its half-open
span. -/
def getWordAtCursor (raw : List Char) (charPos : Nat) :
    Option (String × Nat × Nat) :=
  if charPos > (trimLine raw).length then none
  else
    some (String.mk (((trimLine raw).drop (wordStart (trimLine raw) charPos)).take
            (scanRight (trimLine raw) charPos - wordStart (trimLine raw) charPos)),
          wordStart (trimLine raw) charPos, scanRight (trimLine raw) charPos)

/-- The decoded tree handed to `parseYamlDefinitions` by `js-yaml`:
scalars (strings, numbers, booleans, null), sequences, and mappings.
Mapping keys are `String` because the keys of a decoded JavaScript object
are always strings; numeric scalars are carried as integers (the decimal
rendering of a JavaScript integer matches `toString` on `Int`). -/
inductive Yaml where
  | str (s : String)
  | num (n : Int)
  | bool (b : Bool)
  | null
  | seq (xs : List Yaml)
  | map (kvs : List (String × Yaml))

/-- The JavaScript `typeof` operator on a decoded value (`null`,
sequences and mappings are all "object"). -/
def jsTypeof : Yaml → String
  | .str _ => "string"
  | .num _ => "number"
  | .bool _ => "boolean"
  | .null => "object"
  | .seq _ => "object"
  | .map _ => "object"

mutual

/-- JavaScript string coercion of a decoded value, as performed by the
parser's `"" + parmprops`: strings unchanged, numbers and booleans
rendered, `null` rendered as "null", arrays joined with commas with
`null` elements blank, plain objects rendered as "[object Object]". -/
def jsToString : Yaml → String
  | .str s => s
  | .num n => toString n
  | .bool b => if b then "true" else "false"
  | .null => "null"
  | .seq xs => String.intercalate "," (jsArrayElems xs)
  | .map _ => "[object Object]"

/-- Element rendering of the array case of `jsToString`. -/
def jsArrayElems : List Yaml → List String
  | [] => []
  | .null :: rest => "" :: jsArrayElems rest
  | y :: rest => jsToString y :: jsArrayElems rest

end

/-- The `Object.entries` view of a decoded value: a mapping yields its
key/value pairs in order, an array yields its elements keyed by their
decimal index, and everything else yields nothing (the parser only calls
it on mappings, arrays, or the empty object substituted for `null`). -/
def jsEntries : Yaml → List (String × Yaml)
  | .map kvs => kvs
  | .seq xs => xs.enum.map (fun p => (toString p.1, p.2))
  | _ => []

/-- The string test used by the parser's shape filters
(`typeof x === 'string'`), as an optional projection. -/
def yamlStr : Yaml → Option String
  | .str s => some s
  | _ => none

/-- The parameter extraction of the `parm`-family branch (codehelp.ts
lines 302-321): one raw parameter per entry of the value, its help the
string coercion of the entry value, `editable` and `type` never
supplied. -/
def parsedParams (value : Yaml) : List SonicPiParameterDescription :=
  (jsEntries value).map (fun kv =>
    { name := kv.1, help := .md { value := jsToString kv.2 } })

/-- The mutable locals of one command record of `parseYamlDefinitions`
(codehelp.ts lines 273-277), at their initial values. -/
structure PropState where
  parameters : Option (List SonicPiParameterDescription) := none
  examples : Option (List String) := none
  formattedCommand : List String := []
  help : Option String := none
  returns : Option String := none
deriving DecidableEq

/-- One iteration of the descriptor-property loop of
`parseYamlDefinitions` (codehelp.ts lines 280-332): property-name
synonyms are dispatched case-sensitively, value shapes are checked, and
mismatched shapes leave the state unchanged. The source's non-string
property-key failure cannot fire here because decoded object keys are
strings, and its `filter` on freshly constructed parameters is the
identity. -/
def processProperty (st : PropState) (property : String) (value : Yaml) :
    PropState :=
  if property = "cmd" ∨ property = "formattedCommand" then
    match value with
    | .str s => { st with formattedCommand := [s] }
    | .seq xs => { st with formattedCommand := xs.filterMap yamlStr }
    | _ => st
  else if property = "return" ∨ property = "returns" then
    match value with
    | .str s => { st with returns := some s }
    | _ => st
  else if property = "help" ∨ property = "doc" then
    match value with
    | .str s => { st with help := some s }
    | _ => st
  else if property = "parm" ∨ property = "param" ∨ property = "params" ∨
          property = "parameters" then
    match value with
    | .seq _ | .map _ => { st with parameters := some (parsedParams value) }
    | _ => st
  else if property = "example" ∨ property = "examples" then
    let value2 := match value with
      | .str s => Yaml.seq [.str s]
      | v => v
    match value2 with
    | .seq xs => { st with examples := some (xs.filterMap yamlStr) }
    | _ => st
  else st

/-- One top-level entry of `parseYamlDefinitions` (codehelp.ts lines
268-342): a string value renames the command; an object value (mapping,
array, or `null` treated as the empty object) is folded through the
property loop; any other value raises. The constructor call on line 341
passes `command`, `formattedCommand` (always a — possibly empty — array),
`parameters`, `returns` and `help`, and does not pass the parsed
`examples`. -/
def parseEntry (command : String) (v : Yaml) :
    Except String SonicPiCommandDescription :=
  match v with
  | .null | .seq _ | .map _ =>
    let st := (jsEntries v).foldl
      (fun st kv => processProperty st kv.1 kv.2) {}
    .ok (SonicPiCommandDescription.make
      { command := command
      , formattedCommand := some (.inr (st.formattedCommand.map StrOrMd.s))
      , parameters := st.parameters
      , returns := st.returns
      , help := st.help.map StrOrMd.s })
  | .str s =>
    .ok (SonicPiCommandDescription.make
      { command := s, formattedCommand := some (.inr []) })
  | _ => .error ("Invalid command description value type " ++ jsTypeof v)

/-- The entry loop of `parseYamlDefinitions`: a `.map` over the top-level
entries through which a thrown failure propagates, i.e. the first failing
entry aborts the whole call. -/
def parseAll : List (String × Yaml) →
    Except String (List SonicPiCommandDescription)
  | [] => .ok []
  | kv :: rest =>
    match parseEntry kv.1 kv.2, parseAll rest with
    | .ok d, .ok ds => .ok (d :: ds)
    | .error e, _ => .error e
    | .ok _, .error e => .error e

/-- Method `parseYamlDefinitions` (codehelp.ts lines 267-343): each
top-level entry of the decoded tree becomes one command description, in
entry order; a failing entry fails the whole call (the enclosing per-
source `try` of `init` is outside this function). The source's non-string
command-key failure cannot fire because decoded object keys are
strings. -/
def parseYamlDefinitions (ydef : Yaml) :
    Except String (List SonicPiCommandDescription) :=
  parseAll (jsEntries ydef)

/-- The live registry `commandDescriptions`: a JavaScript object modelled
as an insertion-ordered association list with unique keys. -/
abbrev Registry := List (String × SonicPiCommandDescription)

/-- JavaScript object property assignment `obj[k] = v`: an existing key
keeps its position and gets the new value, a new key is appended. -/
def objSet (reg : Registry) (k : String) (v : SonicPiCommandDescription) :
    Registry :=
  if reg.any (fun kv => kv.1 = k) then
    reg.map (fun kv => if kv.1 = k then (k, v) else kv)
  else reg ++ [(k, v)]

/-- JavaScript object property read `obj[k]`, absent keys yielding
`undefined` (keys are unique, so the first binding is the binding). -/
def objGet : Registry → String → Option SonicPiCommandDescription
  | [], _ => none
  | kv :: rest, k => if kv.1 = k then some kv.2 else objGet rest k

/-- The registry-update phase of `SonicPiLanguageHelpProvider.init`
(codehelp.ts lines 242-256), given the flattened list of freshly parsed
descriptions: every parsed command is written into the registry under its
command name (collecting the written keys), and every registry key not
written in this pass is then deleted. -/
def initRegistry (reg : Registry)
    (newCmds : List SonicPiCommandDescription) : Registry :=
  let reg1 := newCmds.foldl (fun r cmd => objSet r cmd.command cmd) reg
  let newKeys := newCmds.map (fun cmd => cmd.command)
  reg1.filter (fun kv => newKeys.contains kv.1)

/-- The completion items built by `provideCompletionItems`: label, the
replaced range on the line, the plain-text detail, and the insert
text (the host-enum `kind` field, a constant, is omitted). -/
structure CompletionItem where
  label : String
  range : Nat × Nat
  detail : String
  insertText : Option String
deriving DecidableEq

/-- The global backtick strip applied to each signature line for the
completion detail field. -/
def removeBackticks (s : String) : String :=
  String.mk (s.data.filter (fun c => c ≠ backtickChar))

/-- The `detail` text of one completion item: the signature lines with
backticks removed, joined. -/
def detailFor (cdesc : SonicPiCommandDescription) : String :=
  String.intercalate "    \n" (cdesc.formattedCommand.map (fun x => removeBackticks x.value))

/-- The `insertText` of one completion item (codehelp.ts lines 399-403):
the command name directly concatenated with the space-joined names of its
`editable` parameters. -/
def insertTextFor (cdesc : SonicPiCommandDescription) : String :=
  cdesc.command ++ String.intercalate " "
    ((cdesc.parameters.filter (fun x => x.editable)).map (fun x => x.name))

/-- Method `provideCompletionItems` (codehelp.ts lines 373-410): resolve
the word at the cursor (no word means no completions), keep the registry
entries whose key starts with it, and build one item per match. The
`parameters === undefined` branch that would overwrite `detail` and skip
`insertText` is unreachable because the constructor always assigns a
parameter array. -/
def provideCompletionItems (reg : Registry) (raw : List Char)
    (charPos : Nat) : Option (List CompletionItem) :=
  match getWordAtCursor raw charPos with
  | none => none
  | some (word, startChar, endChar) =>
    some ((reg.filter (fun kv => strStartsWith kv.1 word)).map (fun kv =>
      { label := kv.1
      , range := (startChar, endChar)
      , detail := detailFor kv.2
      , insertText := some (insertTextFor kv.2) }))

/-! Scan lemmas: the left and right loops of `getWordAtCursor` compute
exactly the word boundaries described by the character classes. -/

theorem scanLeft_zero (line : List Char) :
    scanLeft line 0 = if isWordChar (charAt line 0) then 0 else 1 := rfl

theorem scanLeft_succ (line : List Char) (i : Nat) :
    scanLeft line (i + 1) =
      if isWordChar (charAt line (i + 1)) then scanLeft line i else i + 2 := rfl

theorem scanLeft_le (line : List Char) (i : Nat) : scanLeft line i ≤ i + 1 := by
  induction i with
  | zero => rw [scanLeft_zero]; split <;> omega
  | succ j ih =>
    rw [scanLeft_succ]
    split
    · exact Nat.le_trans ih (by omega)
    · omega

theorem scanLeft_mem (line : List Char) (i : Nat) :
    ∀ k, scanLeft line i ≤ k → k ≤ i → isWordChar (charAt line k) = true := by
  induction i with
  | zero =>
    intro k h1 h2
    have hk : k = 0 := Nat.le_zero.mp h2
    subst hk
    rw [scanLeft_zero] at h1
    cases hB : isWordChar (charAt line 0) with
    | true => rfl
    | false => rw [hB] at h1; simp at h1
  | succ j ih =>
    intro k h1 h2
    rw [scanLeft_succ] at h1
    cases hB : isWordChar (charAt line (j + 1)) with
    | false =>
      rw [hB] at h1
      simp at h1
      omega
    | true =>
      rw [hB] at h1
      simp at h1
      rcases Nat.lt_or_ge k (j + 1) with hlt | hge
      · exact ih k h1 (by omega)
      · have hk : k = j + 1 := by omega
        subst hk
        exact hB

theorem scanLeft_bound (line : List Char) (i : Nat) :
    scanLeft line i = 0 ∨
    isWordChar (charAt line (scanLeft line i - 1)) = false := by
  induction i with
  | zero =>
    cases hB : isWordChar (charAt line 0) with
    | true => left; rw [scanLeft_zero, hB]; simp
    | false =>
      right
      rw [scanLeft_zero, hB]
      simpa using hB
  | succ j ih =>
    cases hB : isWordChar (charAt line (j + 1)) with
    | true =>
      rw [scanLeft_succ, hB]
      simpa using ih
    | false =>
      right
      rw [scanLeft_succ, hB]
      simp only [Bool.false_eq_true, if_false]
      have h21 : j + 2 - 1 = j + 1 := by omega
      rw [h21]
      exact hB

theorem scanLeft_stop (line : List Char) (i : Nat)
    (h : isWordChar (charAt line i) = false) : scanLeft line i = i + 1 := by
  cases i with
  | zero => rw [scanLeft_zero, h]; simp
  | succ j => rw [scanLeft_succ, h]; simp

theorem scanRight_le_length (line : List Char) (i : Nat) :
    scanRight line i ≤ line.length := by
  rw [scanRight_eq]
  split
  next hlt =>
    split
    · exact scanRight_le_length line (i + 1)
    · omega
  next hge => exact Nat.le_refl _
termination_by line.length - i
decreasing_by simp_wf; omega

theorem scanRight_ge (line : List Char) (i : Nat) (h : i ≤ line.length) :
    i ≤ scanRight line i := by
  rw [scanRight_eq]
  split
  next hlt =>
    split
    · exact Nat.le_trans (Nat.le_succ i) (scanRight_ge line (i + 1) hlt)
    · exact Nat.le_refl i
  next hge => omega
termination_by line.length - i
decreasing_by simp_wf; omega

theorem scanRight_mem (line : List Char) (i : Nat) (k : Nat) (hik : i ≤ k)
    (hk : k < scanRight line i) : isWordCharApos (charAt line k) = true := by
  rw [scanRight_eq] at hk
  split at hk
  next hlt =>
    split at hk
    next hc =>
      rcases Nat.eq_or_lt_of_le hik with rfl | hlt2
      · exact hc
      · exact scanRight_mem line (i + 1) k hlt2 hk
    next hc => omega
  next hge => omega
termination_by line.length - i
decreasing_by simp_wf; omega

theorem scanRight_bound (line : List Char) (i : Nat) :
    scanRight line i = line.length ∨
    isWordCharApos (charAt line (scanRight line i)) = false := by
  rw [scanRight_eq]
  split
  next hlt =>
    split
    next hc => exact scanRight_bound line (i + 1)
    next hc => right; simpa using hc
  next hge => left; rfl
termination_by line.length - i
decreasing_by simp_wf; omega

theorem scanRight_stop (line : List Char) (i : Nat) (hle : i ≤ line.length)
    (h : i = line.length ∨ isWordCharApos (charAt line i) = false) :
    scanRight line i = i := by
  rw [scanRight_eq]
  rcases h with rfl | hf
  · simp
  · split
    next hlt => rw [hf]; simp
    next hge => omega

theorem wordStart_le (line : List Char) (charPos : Nat) :
    wordStart line charPos ≤ charPos := by
  cases charPos with
  | zero => exact Nat.le_refl 0
  | succ i => exact scanLeft_le line i

theorem wordStart_mem (line : List Char) (charPos : Nat) :
    ∀ k, wordStart line charPos ≤ k → k < charPos →
      isWordChar (charAt line k) = true := by
  cases charPos with
  | zero => intro k _ h2; omega
  | succ i => intro k h1 h2; exact scanLeft_mem line i k h1 (by omega)

theorem wordStart_bound (line : List Char) (charPos : Nat) :
    wordStart line charPos = 0 ∨
    isWordChar (charAt line (wordStart line charPos - 1)) = false := by
  cases charPos with
  | zero => exact Or.inl rfl
  | succ i => exact scanLeft_bound line i

theorem wordStart_stop (line : List Char) (charPos : Nat)
    (h : charPos = 0 ∨ isWordChar (charAt line (charPos - 1)) = false) :
    wordStart line charPos = charPos := by
  cases charPos with
  | zero => rfl
  | succ i =>
    rcases h with h0 | hf
    · omega
    · exact scanLeft_stop line i (by simpa using hf)

theorem getWordAtCursor_in_bounds (raw : List Char) (charPos : Nat)
    (hin : charPos ≤ (trimLine raw).length) :
    getWordAtCursor raw charPos =
      some (String.mk (((trimLine raw).drop (wordStart (trimLine raw) charPos)).take
              (scanRight (trimLine raw) charPos - wordStart (trimLine raw) charPos)),
            wordStart (trimLine raw) charPos, scanRight (trimLine raw) charPos) := by
  unfold getWordAtCursor
  rw [if_neg (by omega)]

/-- The line of the spec's word-resolution examples. -/
def playCommentLine : List Char := "play 70 -- comment".data

/-- The apostrophe example line, spelled character by character. -/
def apostropheLine : List Char :=
  ['f', 'o', 'o', apostropheChar, 'b', 'a', 'r']

/-- C6: for every line and in-bounds cursor offset, the word resolver
returns the substring between a start found by scanning left from the
character before the cursor through the class digits, letters and
underscore, and an end found by scanning right from the cursor through
that class extended with the apostrophe, and its span is exactly that
half-open range; on the trimmed line of "play 70 -- comment" offset 4
yields "play" with span 0 to 4 and offset 7 yields "70" with span 5 to 7,
and on the apostrophe line offset 3 the right scan takes the apostrophe
while the left class would not. -/
theorem getWordAtCursor_scan_resolution :
    (∀ raw charPos, charPos ≤ (trimLine raw).length →
      ∃ s e, getWordAtCursor raw charPos =
          some (String.mk (((trimLine raw).drop s).take (e - s)), s, e) ∧
        s ≤ charPos ∧
        (∀ k, s ≤ k → k < charPos → isWordChar (charAt (trimLine raw) k) = true) ∧
        (s = 0 ∨ isWordChar (charAt (trimLine raw) (s - 1)) = false) ∧
        charPos ≤ e ∧ e ≤ (trimLine raw).length ∧
        (∀ k, charPos ≤ k → k < e → isWordCharApos (charAt (trimLine raw) k) = true) ∧
        (e = (trimLine raw).length ∨ isWordCharApos (charAt (trimLine raw) e) = false)) ∧
    getWordAtCursor playCommentLine 4 = some ("play", 0, 4) ∧
    getWordAtCursor playCommentLine 7 = some ("70", 5, 7) ∧
    getWordAtCursor apostropheLine 3 = some (String.mk apostropheLine, 0, 7) := by
  refine ⟨?_, by decide, by decide, by decide⟩
  intro raw charPos hin
  exact ⟨wordStart (trimLine raw) charPos, scanRight (trimLine raw) charPos,
    getWordAtCursor_in_bounds raw charPos hin,
    wordStart_le _ charPos,
    wordStart_mem _ charPos,
    wordStart_bound _ charPos,
    scanRight_ge _ charPos hin,
    scanRight_le_length _ charPos,
    fun k h1 h2 => scanRight_mem _ charPos k h1 h2,
    scanRight_bound _ charPos⟩

/-- Witness for C6 at the line "play 70 -- comment" with the cursor at
offset 4. -/
theorem getWordAtCursor_scan_resolution_witness :
    ∃ s e, getWordAtCursor playCommentLine 4 =
        some (String.mk (((trimLine playCommentLine).drop s).take (e - s)), s, e) ∧
      s ≤ 4 ∧
      (∀ k, s ≤ k → k < 4 → isWordChar (charAt (trimLine playCommentLine) k) = true) ∧
      (s = 0 ∨ isWordChar (charAt (trimLine playCommentLine) (s - 1)) = false) ∧
      4 ≤ e ∧ e ≤ (trimLine playCommentLine).length ∧
      (∀ k, 4 ≤ k → k < e → isWordCharApos (charAt (trimLine playCommentLine) k) = true) ∧
      (e = (trimLine playCommentLine).length ∨
        isWordCharApos (charAt (trimLine playCommentLine) e) = false) :=
  getWordAtCursor_scan_resolution.1 playCommentLine 4 (by decide)

/-- The in-bounds cursor-between-blanks example line. -/
def betweenBlanksLine : List Char := "a  b".data

/-- The out-of-bounds cursor example line (same text as the spec's
comment-strip example). -/
def outOfBoundsLine : List Char := "play 70 -- comment".data

/-- C9: the word resolver is absent exactly when the cursor offset
exceeds the trimmed line's length, and an in-bounds cursor between two
non-identifier characters yields the zero-length identifier with the
zero-length span at the cursor (the resolver is a total function, so
neither case can raise). -/
theorem getWordAtCursor_absent_iff (raw : List Char) (charPos : Nat) :
    (getWordAtCursor raw charPos = none ↔ (trimLine raw).length < charPos) ∧
    (charPos ≤ (trimLine raw).length →
     (charPos = 0 ∨ isWordChar (charAt (trimLine raw) (charPos - 1)) = false) →
     (charPos = (trimLine raw).length ∨
       isWordCharApos (charAt (trimLine raw) charPos) = false) →
     getWordAtCursor raw charPos = some ("", charPos, charPos)) := by
  constructor
  · unfold getWordAtCursor
    split
    next hgt => exact ⟨fun _ => hgt, fun _ => rfl⟩
    next hle => exact ⟨fun h => Option.noConfusion h, fun h => absurd h hle⟩
  · intro hin hleft hright
    have hs : wordStart (trimLine raw) charPos = charPos :=
      wordStart_stop _ charPos hleft
    have he : scanRight (trimLine raw) charPos = charPos :=
      scanRight_stop _ charPos hin hright
    rw [getWordAtCursor_in_bounds raw charPos hin, hs, he]
    simp

/-- Witness for C9: offset 2 of "a  b" sits between two blanks and yields
the empty identifier with the empty span, and offset 19 of
"play 70 -- comment" lies beyond the trimmed line and yields no
identifier. -/
theorem getWordAtCursor_absent_iff_witness :
    getWordAtCursor betweenBlanksLine 2 = some ("", 2, 2) ∧
    getWordAtCursor outOfBoundsLine 19 = none :=
  ⟨(getWordAtCursor_absent_iff betweenBlanksLine 2).2 (by decide) (by decide)
     (by decide),
   (getWordAtCursor_absent_iff outOfBoundsLine 19).1.mpr (by decide)⟩

/-- C5: `OFF` formats to nothing, and each higher detail level only
appends to the text of the level below, for every description and either
signature flag. -/
theorem format_detail_levels_monotone (d : SonicPiCommandDescription)
    (w : Bool) :
    d.format .OFF w = none ∧
    ∃ s1 s2 s3 : String,
      d.format .MINIMUM w = some { value := s1, isTrusted := true } ∧
      d.format .NO_EXAMPLES_NO_LINKS w = some { value := s2, isTrusted := true } ∧
      d.format .FULL w = some { value := s3, isTrusted := true } ∧
      (∃ t, s2 = s1 ++ t) ∧ (∃ u, s3 = s2 ++ u) := by
  refine ⟨rfl, signatureText d w,
    signatureText d w ++ helpText d (signatureText d w) ++ paramsText d ++
      returnsText d,
    signatureText d w ++ helpText d (signatureText d w) ++ paramsText d ++
      returnsText d ++ examplesText d,
    rfl, rfl, rfl,
    ⟨helpText d (signatureText d w) ++ (paramsText d ++ returnsText d), ?_⟩,
    ⟨examplesText d, rfl⟩⟩
  rw [String.append_assoc, String.append_assoc]

/-- C4: constructing a description with no supplied signature and a
supplied parameter list is the same as supplying the signature text
"command, space, the parameter names space-joined in order"; with the
parameters key absent as well it is the same as supplying
"command, space, question mark". -/
theorem synthesized_signature_text (c : String)
    (ps : List SonicPiParameterDescription) (r : Option String)
    (h : Option StrOrMd) (e : Option (StrOrMd ⊕ List StrOrMd)) :
    SonicPiCommandDescription.make
        { command := c, formattedCommand := none, parameters := some ps
        , returns := r, help := h, examples := e }
      = SonicPiCommandDescription.make
        { command := c
        , formattedCommand := some (.inl (.s (c ++ " " ++
            String.intercalate " " (ps.map (fun p => p.name)))))
        , parameters := some ps, returns := r, help := h, examples := e } ∧
    SonicPiCommandDescription.make
        { command := c, formattedCommand := none, parameters := none
        , returns := r, help := h, examples := e }
      = SonicPiCommandDescription.make
        { command := c, formattedCommand := some (.inl (.s (c ++ " ?")))
        , parameters := none, returns := r, help := h, examples := e } := by
  constructor
  · simp only [SonicPiCommandDescription.make]
    simp [List.map_map, Function.comp_def]
  · rfl

/-- Modelled on the words of the reload claim, for comparison with
`initRegistry`: after a reload the registry should hold, for each key,
exactly the last description the parse pass produced under that key, and
nothing for keys the parse pass did not produce. -/
def lastParsedFor : List SonicPiCommandDescription → String →
    Option SonicPiCommandDescription
  | [], _ => none
  | cmd :: rest, k =>
    match lastParsedFor rest k with
    | some d => some d
    | none => if cmd.command = k then some cmd else none

theorem objGet_map_set_same (reg : Registry) (k : String)
    (v : SonicPiCommandDescription)
    (hany : reg.any (fun kv => kv.1 = k) = true) :
    objGet (reg.map (fun kv => if kv.1 = k then (k, v) else kv)) k = some v := by
  induction reg with
  | nil => simp at hany
  | cons a l ih =>
    by_cases ha : a.1 = k
    · simp [objGet, ha]
    · have hl : l.any (fun kv => kv.1 = k) = true := by
        simpa [ha] using hany
      simp [objGet, ha, ih hl]

theorem objGet_map_set_other (reg : Registry) (k : String)
    (v : SonicPiCommandDescription) (q : String) (hq : ¬ q = k) :
    objGet (reg.map (fun kv => if kv.1 = k then (k, v) else kv)) q =
      objGet reg q := by
  induction reg with
  | nil => rfl
  | cons a l ih =>
    by_cases ha : a.1 = k
    · have haq : ¬ a.1 = q := fun h => hq (h ▸ ha)
      have hkq : ¬ k = q := fun h => hq h.symm
      simp [objGet, ha, haq, hkq, ih]
    · by_cases haq : a.1 = q
      · simp [objGet, ha, haq, hq]
      · simp [objGet, ha, haq, hq, ih]

theorem objGet_none_of_any_false (reg : Registry) (k : String)
    (hany : reg.any (fun kv => kv.1 = k) = false) : objGet reg k = none := by
  induction reg with
  | nil => rfl
  | cons a l ih =>
    have ha : ¬ a.1 = k := by
      intro h
      simp [h] at hany
    have hl : l.any (fun kv => kv.1 = k) = false := by
      simpa [ha] using hany
    simp [objGet, ha, ih hl]

theorem objGet_append_single_same (reg : Registry) (k : String)
    (v : SonicPiCommandDescription) (hnone : objGet reg k = none) :
    objGet (reg ++ [(k, v)]) k = some v := by
  induction reg with
  | nil => simp [objGet]
  | cons a l ih =>
    by_cases ha : a.1 = k
    · simp [objGet, ha] at hnone
    · have hl : objGet l k = none := by
        simpa [objGet, ha] using hnone
      simp [objGet, ha, ih hl]

theorem objGet_append_single_other (reg : Registry) (k : String)
    (v : SonicPiCommandDescription) (q : String) (hq : ¬ q = k) :
    objGet (reg ++ [(k, v)]) q = objGet reg q := by
  induction reg with
  | nil =>
    have hkq : ¬ k = q := fun h => hq h.symm
    simp [objGet, hkq]
  | cons a l ih =>
    by_cases haq : a.1 = q
    · simp [objGet, haq]
    · simp [objGet, haq, ih]

theorem objGet_objSet (reg : Registry) (k : String)
    (v : SonicPiCommandDescription) (q : String) :
    objGet (objSet reg k v) q = if q = k then some v else objGet reg q := by
  unfold objSet
  by_cases hq : q = k
  · subst hq
    rw [if_pos rfl]
    split
    next hany => exact objGet_map_set_same reg q v hany
    next hany =>
      have hany2 : reg.any (fun kv => kv.1 = q) = false := by
        simp only [Bool.not_eq_true] at hany
        exact hany
      exact objGet_append_single_same reg q v
        (objGet_none_of_any_false reg q hany2)
  · rw [if_neg hq]
    split
    next => exact objGet_map_set_other reg k v q hq
    next => exact objGet_append_single_other reg k v q hq

theorem objGet_foldl_objSet (newCmds : List SonicPiCommandDescription)
    (reg : Registry) (k : String) :
    objGet (newCmds.foldl (fun r cmd => objSet r cmd.command cmd) reg) k =
      match lastParsedFor newCmds k with
      | some d => some d
      | none => objGet reg k := by
  induction newCmds generalizing reg with
  | nil => rfl
  | cons cmd rest ih =>
    simp only [List.foldl_cons, lastParsedFor]
    rw [ih (objSet reg cmd.command cmd)]
    cases hrest : lastParsedFor rest k with
    | some d => rfl
    | none =>
      rw [objGet_objSet]
      by_cases hk : cmd.command = k
      · simp [hk]
      · simp [hk, Ne.symm hk]

theorem objGet_filter_contains (reg : Registry) (keys : List String)
    (k : String) :
    objGet (reg.filter (fun kv => keys.contains kv.1)) k =
      if keys.contains k then objGet reg k else none := by
  induction reg with
  | nil => simp [objGet]
  | cons a l ih =>
    simp only [List.elem_eq_mem, decide_eq_true_eq] at ih
    by_cases hk : a.1 ∈ keys
    · by_cases haq : a.1 = k
      · subst haq
        simp [List.filter_cons, hk, objGet]
      · simp [List.filter_cons, hk, objGet, haq, ih]
    · by_cases haq : a.1 = k
      · subst haq
        simp [List.filter_cons, hk, objGet, ih]
      · simp [List.filter_cons, hk, objGet, haq, ih]

theorem lastParsedFor_eq_none_iff (newCmds : List SonicPiCommandDescription)
    (k : String) :
    lastParsedFor newCmds k = none ↔
      ¬ k ∈ newCmds.map (fun c => c.command) := by
  induction newCmds with
  | nil => simp [lastParsedFor]
  | cons cmd rest ih =>
    cases hrest : lastParsedFor rest k with
    | some d =>
      have hmem : k ∈ rest.map (fun c => c.command) := by
        by_contra hmem
        exact Option.noConfusion (hrest ▸ ih.mpr hmem)
      simp [lastParsedFor, hrest, hmem]
    | none =>
      have hmem : ¬ k ∈ rest.map (fun c => c.command) := ih.mp hrest
      by_cases hc : cmd.command = k
      · subst hc
        simp [lastParsedFor, hrest]
      · simp [lastParsedFor, hrest, hc, Ne.symm hc, hmem]

/-- Example descriptions for the reload-pruning example of C7. -/
def reloadDescA : SonicPiCommandDescription :=
  SonicPiCommandDescription.make { command := "a" }

/-- Second example description for the reload-pruning example of C7. -/
def reloadDescB : SonicPiCommandDescription :=
  SonicPiCommandDescription.make { command := "b" }

/-- C7: after one registry update of `init` with parse output `newCmds`,
a key resolves to exactly the last description parsed under it — so
every parsed command is bound to its newly parsed description regardless
of what the registry held before, the bound keys are exactly the parsed
commands, and stale keys are gone; in particular the registry holding
the keys "a" and "b" reloaded with a parse producing only "a" holds
exactly the key "a". -/
theorem initRegistry_replaces_and_prunes :
    (∀ (reg : Registry) (newCmds : List SonicPiCommandDescription) (k : String),
      objGet (initRegistry reg newCmds) k = lastParsedFor newCmds k ∧
      ((objGet (initRegistry reg newCmds) k).isSome ↔
        k ∈ newCmds.map (fun c => c.command))) ∧
    (initRegistry [("a", reloadDescA), ("b", reloadDescB)] [reloadDescA]).map
        (fun kv => kv.1) = ["a"] ∧
    objGet (initRegistry [("a", reloadDescA), ("b", reloadDescB)]
        [reloadDescA]) "a" = some reloadDescA ∧
    objGet (initRegistry [("a", reloadDescA), ("b", reloadDescB)]
        [reloadDescA]) "b" = none := by
  refine ⟨?_, by decide, by decide, by decide⟩
  intro reg newCmds k
  have hmain : objGet (initRegistry reg newCmds) k = lastParsedFor newCmds k := by
    unfold initRegistry
    rw [objGet_filter_contains, objGet_foldl_objSet]
    by_cases hmem : k ∈ newCmds.map (fun c => c.command)
    · rw [if_pos (List.elem_iff.mpr hmem)]
      cases hlp : lastParsedFor newCmds k with
      | some d => rfl
      | none => exact absurd hmem ((lastParsedFor_eq_none_iff _ _).mp hlp)
    · rw [if_neg (fun hc => hmem (List.elem_iff.mp hc))]
      exact ((lastParsedFor_eq_none_iff _ _).mpr hmem).symm
  refine ⟨hmain, ?_⟩
  rw [hmain]
  constructor
  · intro hsome
    by_contra hmem
    rw [(lastParsedFor_eq_none_iff _ _).mpr hmem] at hsome
    simp at hsome
  · intro hmem
    cases hlp : lastParsedFor newCmds k with
    | some d => rfl
    | none => exact absurd hmem ((lastParsedFor_eq_none_iff _ _).mp hlp)

/-- C8: every completion item produced for a resolved prefix is labeled
with a registry key whose description supplies its insertion text: the
command name followed by the space-joined names of exactly the editable
parameters, every joined name being the name of an editable parameter
(so non-editable parameter names are never inserted). -/
theorem provideCompletionItems_insertText (reg : Registry) (raw : List Char)
    (charPos : Nat) (items : List CompletionItem) (item : CompletionItem)
    (hsome : provideCompletionItems reg raw charPos = some items)
    (hmem : item ∈ items) :
    ∃ k d, (k, d) ∈ reg ∧ item.label = k ∧
      item.insertText = some (d.command ++ String.intercalate " "
        ((d.parameters.filter (fun p => p.editable)).map (fun p => p.name))) ∧
      ∀ n ∈ (d.parameters.filter (fun p => p.editable)).map (fun p => p.name),
        ∃ p, p ∈ d.parameters ∧ p.editable = true ∧ p.name = n := by
  unfold provideCompletionItems at hsome
  cases hw : getWordAtCursor raw charPos with
  | none => rw [hw] at hsome; exact Option.noConfusion hsome
  | some wse =>
    obtain ⟨word, s, e⟩ := wse
    rw [hw] at hsome
    have hitems := Option.some.inj hsome
    subst hitems
    obtain ⟨kv, hkvf, hkv⟩ := List.mem_map.mp hmem
    obtain ⟨hkvreg, _⟩ := List.mem_filter.mp hkvf
    refine ⟨kv.1, kv.2, hkvreg, ?_, ?_, ?_⟩
    · rw [← hkv]
    · rw [← hkv]; rfl
    · intro n hn
      obtain ⟨p, hpf, hpn⟩ := List.mem_map.mp hn
      obtain ⟨hpmem, hped⟩ := List.mem_filter.mp hpf
      exact ⟨p, hpmem, hped, hpn⟩

/-- Completion example: a command with one editable parameter. -/
def completionDescPlay : SonicPiCommandDescription :=
  SonicPiCommandDescription.make
    { command := "play", formattedCommand := some (.inl (.s "play n"))
    , parameters := some [{ name := "n", help := .s "the note"
                          , editable := some true }] }

/-- Completion example: a command that does not match the prefix. -/
def completionDescStop : SonicPiCommandDescription :=
  SonicPiCommandDescription.make { command := "stop" }

/-- Completion example registry. -/
def completionReg : Registry :=
  [("play", completionDescPlay), ("stop", completionDescStop)]

/-- The completion item produced for the prefix "pla" on the example
registry. -/
def completionItemPlay : CompletionItem :=
  { label := "play", range := (0, 3), detail := "    play n"
  , insertText := some "playn" }

/-- Witness for C8 at the example registry with prefix "pla". -/
theorem provideCompletionItems_insertText_witness :
    ∃ k d, (k, d) ∈ completionReg ∧ completionItemPlay.label = k ∧
      completionItemPlay.insertText = some (d.command ++ String.intercalate " "
        ((d.parameters.filter (fun p => p.editable)).map (fun p => p.name))) ∧
      ∀ n ∈ (d.parameters.filter (fun p => p.editable)).map (fun p => p.name),
        ∃ p, p ∈ d.parameters ∧ p.editable = true ∧ p.name = n :=
  provideCompletionItems_insertText completionReg ("pla".data) 3
    [completionItemPlay] completionItemPlay (by decide) (by decide)

theorem parseAll_mem (entries : List (String × Yaml))
    (out : List SonicPiCommandDescription) (d : SonicPiCommandDescription)
    (hok : parseAll entries = .ok out) (hd : d ∈ out) :
    ∃ kv ∈ entries, parseEntry kv.1 kv.2 = .ok d := by
  induction entries generalizing out with
  | nil =>
    have h := Except.ok.inj hok
    subst h
    simp at hd
  | cons kv rest ih =>
    unfold parseAll at hok
    cases he : parseEntry kv.1 kv.2 with
    | error e => rw [he] at hok; exact Except.noConfusion hok
    | ok d0 =>
      rw [he] at hok
      cases hr : parseAll rest with
      | error e => rw [hr] at hok; exact Except.noConfusion hok
      | ok ds =>
        rw [hr] at hok
        have h := Except.ok.inj hok
        subst h
        rcases List.mem_cons.mp hd with rfl | hd2
        · exact ⟨kv, List.mem_cons_self kv rest, he⟩
        · obtain ⟨kv2, hkv2, hp⟩ := ih ds hr hd2
          exact ⟨kv2, List.mem_cons_of_mem kv hkv2, hp⟩

theorem processProperty_parameters (st : PropState) (property : String)
    (value : Yaml) :
    (processProperty st property value).parameters = st.parameters ∨
    (processProperty st property value).parameters = some (parsedParams value) := by
  unfold processProperty
  repeat' split
  all_goals try (left; cases value <;> rfl)
  all_goals simp

theorem foldl_processProperty_params (entries : List (String × Yaml))
    (st : PropState)
    (hst : ∀ q, st.parameters = some q →
      ∀ p ∈ q, p.editable = none ∧ p.type = none) :
    ∀ q, (entries.foldl (fun st kv => processProperty st kv.1 kv.2) st).parameters
        = some q →
      ∀ p ∈ q, p.editable = none ∧ p.type = none := by
  induction entries generalizing st with
  | nil => exact hst
  | cons kv rest ih =>
    refine ih (processProperty st kv.1 kv.2) ?_
    intro q hq p hp
    rcases processProperty_parameters st kv.1 kv.2 with heq | heq
    · rw [heq] at hq
      exact hst q hq p hp
    · rw [heq] at hq
      have hq2 := Option.some.inj hq
      subst hq2
      obtain ⟨kv2, _, hkvp⟩ := List.mem_map.mp hp
      rw [← hkvp]
      exact ⟨rfl, rfl⟩

theorem make_params_locked (cfg : CommandDescriptionConfig)
    (hcfg : ∀ q, cfg.parameters = some q →
      ∀ p ∈ q, p.editable = none ∧ p.type = none) :
    ∀ p ∈ (SonicPiCommandDescription.make cfg).parameters,
      p.editable = false ∧ p.type = none := by
  intro p hp
  unfold SonicPiCommandDescription.make at hp
  simp only at hp
  cases hps : cfg.parameters with
  | none => rw [hps] at hp; simp at hp
  | some ps =>
    rw [hps] at hp
    simp only [List.map_map] at hp
    obtain ⟨parm, hparm, hpe⟩ := List.mem_map.mp hp
    obtain ⟨hed, hty⟩ := hcfg ps hps parm hparm
    rw [← hpe]
    simp [Function.comp_def, hed, hty]

theorem parseEntry_params (command : String) (v : Yaml)
    (d : SonicPiCommandDescription) (hok : parseEntry command v = .ok d) :
    ∀ p ∈ d.parameters, p.editable = false ∧ p.type = none := by
  unfold parseEntry at hok
  cases v with
  | num n => exact Except.noConfusion hok
  | bool b => exact Except.noConfusion hok
  | str s =>
    have h := Except.ok.inj hok
    subst h
    exact make_params_locked _ (fun q hq => Option.noConfusion hq)
  | null =>
    have h := Except.ok.inj hok
    subst h
    exact make_params_locked _
      (foldl_processProperty_params _ {} (fun q hq => Option.noConfusion hq))
  | seq xs =>
    have h := Except.ok.inj hok
    subst h
    exact make_params_locked _
      (foldl_processProperty_params _ {} (fun q hq => Option.noConfusion hq))
  | map kvs =>
    have h := Except.ok.inj hok
    subst h
    exact make_params_locked _
      (foldl_processProperty_params _ {} (fun q hq => Option.noConfusion hq))

/-- C10: every description produced by the parser has only parameters
with `editable` false and no type, its completion insertion text is the
bare command name, and its rendered parameter lines carry no type tag. -/
theorem parseYaml_parameters_locked (ydef : Yaml)
    (cmds : List SonicPiCommandDescription) (d : SonicPiCommandDescription)
    (hok : parseYamlDefinitions ydef = .ok cmds) (hd : d ∈ cmds) :
    (∀ p ∈ d.parameters, p.editable = false ∧ p.type = none) ∧
    insertTextFor d = d.command ∧
    (∀ p ∈ d.parameters,
      paramLine p = "`" ++ p.name ++ "` " ++ " " ++ p.help.value) := by
  obtain ⟨kv, _, hpe⟩ := parseAll_mem (jsEntries ydef) cmds d hok hd
  have hparams := parseEntry_params kv.1 kv.2 d hpe
  refine ⟨hparams, ?_, ?_⟩
  · unfold insertTextFor
    have hfilter : d.parameters.filter (fun x => x.editable) = [] := by
      rw [List.filter_eq_nil_iff]
      intro p hp
      simp [(hparams p hp).1]
    rw [hfilter]
    simp [String.intercalate, String.append_empty]
  · intro p hp
    unfold paramLine
    rw [(hparams p hp).2]
    simp [String.append_empty]

/-- Parse input of the C10 witness. -/
def paramYamlExample : Yaml :=
  .map [("play", .map [("parm", .map [("note", .str "the note")])])]

/-- The description the parser produces for `paramYamlExample`. -/
def paramDescExample : SonicPiCommandDescription :=
  SonicPiCommandDescription.make
    { command := "play", formattedCommand := some (.inr [])
    , parameters := some [{ name := "note"
                          , help := .md { value := "the note" } }] }

/-- Witness for C10 at a one-command parse with one parameter. -/
theorem parseYaml_parameters_locked_witness :
    (∀ p ∈ paramDescExample.parameters, p.editable = false ∧ p.type = none) ∧
    insertTextFor paramDescExample = paramDescExample.command ∧
    (∀ p ∈ paramDescExample.parameters,
      paramLine p = "`" ++ p.name ++ "` " ++ " " ++ p.help.value) :=
  parseYaml_parameters_locked paramYamlExample [paramDescExample]
    paramDescExample (by rfl) (by decide)

/-- Failing input of C1: a well-formed record supplying only help. -/
def helpOnlyYaml : Yaml := .map [("foo", .map [("help", .str "does foo")])]

/-- C1 evaluated at the failing input: the parser always passes a
(possibly empty) signature array to the constructor, so the synthesis
branch never runs; a record with no `cmd` parses to a description with an
empty signature list, and `format(FULL, true)` yields only the help text
with an empty signature block, not the synthesized "foo ?" the claim
requires. -/
theorem parseYaml_no_synthesized_signature :
    ∃ d, parseYamlDefinitions helpOnlyYaml = .ok [d] ∧
      d.formattedCommand = [] ∧
      signatureText d true = "" ∧
      d.format .FULL true = some { value := "does foo", isTrusted := true } := by
  refine ⟨SonicPiCommandDescription.make
    { command := "foo", formattedCommand := some (.inr [])
    , help := some (.s "does foo") }, by rfl, by rfl, by decide, by decide⟩

/-- Failing input of C2: a well-formed record supplying one example. -/
def exampleOnlyYaml : Yaml :=
  .map [("play", .map [("example", .str "play 70")])]

/-- C2 evaluated at the failing input: the parser collects the example
strings but the constructor call on codehelp.ts line 341 does not pass
them, so the parsed description's examples are empty; had they been
passed (second conjunct), the constructor would wrap the lone example in
a fenced block as the claim describes. -/
theorem parseYaml_drops_examples :
    (∃ d, parseYamlDefinitions exampleOnlyYaml = .ok [d] ∧ d.examples = []) ∧
    (SonicPiCommandDescription.make
        { command := "play", formattedCommand := some (.inr [])
        , examples := some (.inr [.s "play 70"]) }).examples
      = [{ value := "~~~\nplay 70\n~~~\n", isTrusted := true }] := by
  exact ⟨⟨SonicPiCommandDescription.make
    { command := "play", formattedCommand := some (.inr []) }, by rfl, by rfl⟩,
    by decide⟩
